import Mathlib

/-!
Verification of the staff-roster aggregation pipeline and the votes endpoint
of throne-api (`endpoints.go`, `main.go`).

Strings that only flow through equality tests, map keys and member lists are
modelled as Lean `String`.  Permission nodes and prefix literals that the code
slices at byte granularity (`split[1]`, `match[1:]`) are modelled as lists of
UTF-8 bytes (`List Nat`), so that the byte-level behaviour of the Go code is
captured exactly.
-/

/-- Lexicographic strict order on character lists by code point.  UTF-8 is
monotone in code points, so this coincides with Go's bytewise `<` on strings
used by `sort.Strings`. -/
def charsLt : List Char → List Char → Bool
  | [], [] => false
  | [], _ :: _ => true
  | _ :: _, [] => false
  | a :: as, b :: bs =>
    if a.toNat < b.toNat then true
    else if b.toNat < a.toNat then false
    else charsLt as bs

/-- Reflexive order on strings corresponding to Go's `<` comparison in
`sort.Strings`: `a ≤ b` iff not `b < a`. -/
def strLe (a b : String) : Prop := charsLt b.data a.data = false

instance : DecidableRel strLe := fun _ _ => inferInstanceAs (Decidable (_ = false))

theorem charsLt_asymm : ∀ x y : List Char, charsLt x y = true → charsLt y x = false := by
  intro x
  induction x with
  | nil =>
    intro y h
    cases y with
    | nil => simp [charsLt] at h
    | cons b bs => simp [charsLt]
  | cons a as ih =>
    intro y h
    cases y with
    | nil => simp [charsLt] at h
    | cons b bs =>
      simp only [charsLt] at h ⊢
      by_cases hab : a.toNat < b.toNat
      · have hba : ¬ b.toNat < a.toNat := by omega
        simp [hab, hba]
      · by_cases hba : b.toNat < a.toNat
        · simp [hab, hba] at h
        · simp only [hab, hba, if_false, if_neg] at h ⊢
          exact ih bs h

theorem charsLt_connex : ∀ x y : List Char,
    charsLt x y = false → charsLt y x = false → x = y := by
  intro x
  induction x with
  | nil =>
    intro y hx hy
    cases y with
    | nil => rfl
    | cons b bs => simp [charsLt] at hx
  | cons a as ih =>
    intro y hx hy
    cases y with
    | nil => simp [charsLt] at hy
    | cons b bs =>
      simp only [charsLt] at hx hy
      by_cases hab : a.toNat < b.toNat
      · simp [hab] at hx
      · by_cases hba : b.toNat < a.toNat
        · simp [hab, hba] at hy
        · simp only [hab, hba, if_false, if_neg] at hx hy
          have hc : a = b := by
            have hn : a.toNat = b.toNat := by omega
            have hn2 : a.val.toNat = b.val.toNat := hn
            exact Char.ext (UInt32.toNat.inj hn2)
          have ht : as = bs := ih bs hx hy
          rw [hc, ht]

theorem charsLt_trans : ∀ x y z : List Char,
    charsLt x y = true → charsLt y z = true → charsLt x z = true := by
  intro x
  induction x with
  | nil =>
    intro y z hxy hyz
    cases y with
    | nil => simp [charsLt] at hxy
    | cons b bs =>
      cases z with
      | nil => simp [charsLt] at hyz
      | cons c cs => simp [charsLt]
  | cons a as ih =>
    intro y z hxy hyz
    cases y with
    | nil => simp [charsLt] at hxy
    | cons b bs =>
      cases z with
      | nil => simp [charsLt] at hyz
      | cons c cs =>
        simp only [charsLt] at hxy hyz ⊢
        by_cases hab : a.toNat < b.toNat
        · by_cases hbc : b.toNat < c.toNat
          · have : a.toNat < c.toNat := by omega
            simp [this]
          · by_cases hcb : c.toNat < b.toNat
            · simp [hbc, hcb] at hyz
            · have hbec : b.toNat = c.toNat := by omega
              have : a.toNat < c.toNat := by omega
              simp [this]
        · by_cases hba : b.toNat < a.toNat
          · simp [hab, hba] at hxy
          · have haeb : a.toNat = b.toNat := by omega
            by_cases hbc : b.toNat < c.toNat
            · have : a.toNat < c.toNat := by omega
              simp [this]
            · by_cases hcb : c.toNat < b.toNat
              · simp [hbc, hcb] at hyz
              · have hac : ¬ a.toNat < c.toNat := by omega
                have hca : ¬ c.toNat < a.toNat := by omega
                simp only [hab, hba, if_false, if_neg] at hxy
                simp only [hbc, hcb, if_false, if_neg] at hyz
                simp only [hac, hca, if_false, if_neg]
                exact ih bs cs hxy hyz

instance : IsTotal String strLe := by
  constructor
  intro a b
  by_cases h : charsLt b.data a.data = false
  · exact Or.inl h
  · refine Or.inr ?_
    exact charsLt_asymm b.data a.data (by revert h; cases charsLt b.data a.data <;> simp)

instance : IsTrans String strLe := by
  constructor
  intro a b c hab hbc
  unfold strLe at *
  by_cases hca : charsLt c.data a.data = true
  · cases hcb : charsLt c.data b.data with
    | true => rw [hbc] at hcb; exact absurd hcb (by simp)
    | false =>
      cases hbcd : charsLt b.data c.data with
      | true =>
        have := charsLt_trans b.data c.data a.data hbcd hca
        rw [hab] at this
        exact absurd this (by simp)
      | false =>
        have : b.data = c.data := charsLt_connex b.data c.data hbcd hcb
        rw [← this] at hca
        rw [hab] at hca
        exact absurd hca (by simp)
  · revert hca; cases charsLt c.data a.data <;> simp

/-- Model of `sort.Strings` (line 229 of `endpoints.go`): sorts a member list
lexicographically. -/
def sortStrings (l : List String) : List String := List.insertionSort strLe l

theorem sortStrings_sorted (l : List String) : List.Pairwise strLe (sortStrings l) :=
  List.sorted_insertionSort strLe l

theorem sortStrings_perm (l : List String) : (sortStrings l).Perm l :=
  List.perm_insertionSort strLe l

/-- Model of Go's `strings.Split` on a character list with a one-character
separator: `splitOnChar sep l` is the list of maximal chunks of `l` that do
not contain `sep`. -/
def splitOnChar (sep : Char) : List Char → List (List Char)
  | [] => [[]]
  | c :: rest =>
    if c = sep then [] :: splitOnChar sep rest
    else
      match splitOnChar sep rest with
      | [] => [[c]]
      | s :: ss => (c :: s) :: ss

/-- Model of `strings.Split(node, ".")` for the permission nodes of the
user-permissions scan (line 178 of `endpoints.go`). -/
def goSplitDot (s : String) : List String := (splitOnChar '.' s.data).map String.mk

/-- The per-rank record built by `HandleStaff` (`GroupInfo` in `main.go`).
`Title` is kept as UTF-8 bytes because the code manipulates it bytewise. -/
structure GroupInfo where
  Title : List Nat
  Color : String
  Weight : Int
  Members : List String
deriving DecidableEq, Repr

/-- The zero value `&GroupInfo{}` that Go allocates for a fresh rank. -/
def GroupInfo.empty : GroupInfo := ⟨[], "", 0, []⟩

/-- A `map[string]*GroupInfo`, modelled as an association list with
first-occurrence lookup semantics. -/
abbrev RankMap := List (String × GroupInfo)

/-- Map indexing `m[k]` with its `ok` flag. -/
def lookupGI : RankMap → String → Option GroupInfo
  | [], _ => none
  | e :: rest, k => if e.1 = k then some e.2 else lookupGI rest k

/-- Map assignment `m[k] = v`: replaces the entry for `k`, or appends one. -/
def setGI : RankMap → String → GroupInfo → RankMap
  | [], k, v => [(k, v)]
  | e :: rest, k, v => if e.1 = k then (k, v) :: rest else e :: setGI rest k v

/-- In-place mutation of an existing entry (`rank.Weight = num` through the
`*GroupInfo` pointer); a missing key is left untouched. -/
def updateRank (m : RankMap) (k : String) (f : GroupInfo → GroupInfo) : RankMap :=
  m.map fun e => if e.1 = k then (e.1, f e.2) else e

/-- Lines 140-144 / 190-194 of `endpoints.go`: create the rank entry if it is
missing, then append the username to its member list. -/
def addMember (m : RankMap) (rank member : String) : RankMap :=
  setGI m rank
    (let gi := (lookupGI m rank).getD GroupInfo.empty
     { gi with Members := gi.Members ++ [member] })

/-- Member list of a rank, `[]` when the rank is absent. -/
def membersOf (m : RankMap) (k : String) : List String :=
  match lookupGI m k with
  | some gi => gi.Members
  | none => []

theorem lookupGI_setGI_self (m : RankMap) (k : String) (v : GroupInfo) :
    lookupGI (setGI m k v) k = some v := by
  induction m with
  | nil => simp [setGI, lookupGI]
  | cons e rest ih =>
    by_cases h : e.1 = k
    · simp [setGI, h, lookupGI]
    · simp [setGI, h, lookupGI, ih]

theorem lookupGI_setGI_other (m : RankMap) (k k' : String) (v : GroupInfo) (h : k ≠ k') :
    lookupGI (setGI m k v) k' = lookupGI m k' := by
  induction m with
  | nil => simp [setGI, lookupGI, h]
  | cons e rest ih =>
    by_cases he : e.1 = k
    · simp [setGI, he, lookupGI, h]
    · simp only [setGI, he, if_false, if_neg, lookupGI]
      by_cases he' : e.1 = k'
      · simp [he']
      · simp [he', ih]

theorem mem_setGI (m : RankMap) (k : String) (v : GroupInfo) (e : String × GroupInfo)
    (h : e ∈ setGI m k v) : e ∈ m ∨ e = (k, v) := by
  induction m with
  | nil =>
    have h2 : e ∈ [(k, v)] := h
    exact Or.inr (List.mem_singleton.mp h2)
  | cons e0 rest ih =>
    by_cases he : e0.1 = k
    · simp only [setGI, he, if_true, if_pos] at h
      rcases List.mem_cons.mp h with h1 | h1
      · exact Or.inr h1
      · exact Or.inl (List.mem_cons_of_mem _ h1)
    · simp only [setGI, he, if_false, if_neg] at h
      rcases List.mem_cons.mp h with h1 | h1
      · exact Or.inl (List.mem_cons.mpr (Or.inl h1))
      · rcases ih h1 with h2 | h2
        · exact Or.inl (List.mem_cons_of_mem _ h2)
        · exact Or.inr h2

theorem lookupGI_mem (m : RankMap) (k : String) (gi : GroupInfo)
    (h : lookupGI m k = some gi) : (k, gi) ∈ m := by
  induction m with
  | nil => simp [lookupGI] at h
  | cons e rest ih =>
    by_cases he : e.1 = k
    · simp only [lookupGI, he, if_true, if_pos, Option.some.injEq] at h
      subst h
      rw [← he]
      exact List.mem_cons_self e rest
    · simp only [lookupGI, he, if_false, if_neg] at h
      exact List.mem_cons_of_mem _ (ih h)

/-- One iteration of the primary-group row loop (lines 129-145 of
`endpoints.go`): a row is `(username, primary_group)`; rows whose
`primary_group` is not in the configured allow-list contribute nothing. -/
def scanAStep (allowed : List String) (m : RankMap) (row : String × String) : RankMap :=
  if allowed.contains row.2 then addMember m row.2 row.1 else m

/-- The mapping the primary-group scan builds from the rows its iterator
delivers (Scan A). -/
def collectA (allowed : List String) (rows : List (String × String)) : RankMap :=
  rows.foldl (scanAStep allowed) []

/-- One iteration of the user-permissions row loop (lines 172-195 of
`endpoints.go`): a row is `(permissionNode, username)`; the node is split on
`"."`, rows with a segment count other than 2 are skipped, and the second
segment is the rank name, kept only when allow-listed. -/
def scanBStep (allowed : List String) (m : RankMap) (row : String × String) : RankMap :=
  match goSplitDot row.1 with
  | [_, rankName] =>
    if allowed.contains rankName then addMember m rankName row.2 else m
  | _ => m

/-- The mapping the user-permissions scan builds from the rows its iterator
delivers (Scan B). -/
def collectB (allowed : List String) (rows : List (String × String)) : RankMap :=
  rows.foldl (scanBStep allowed) []

/-- The value sent on the `primaryGroupsScanned` conduit at line 147 of
`endpoints.go`: the mapping built by the row loop over exactly the rows the
iterator delivered.  The loop exits when `rows1.Next()` returns `false` and
`rows1.Err()` is never consulted, so this value is sent even when the row
source failed mid-iteration and `delivered` is a strict prefix of the
query's full result set. -/
def primaryConduitMsg (allowed : List String) (delivered : List (String × String)) : RankMap :=
  collectA allowed delivered

/-- The value sent on the `userPermissionsScanned` conduit at line 197 of
`endpoints.go`: the mapping built by the user-permissions row loop over
exactly the rows the iterator delivered.  As with the primary scan, the loop
exits when `rows2.Next()` returns `false` and `rows2.Err()` is never
consulted, so a mid-iteration row-source failure truncates `delivered` to a
strict prefix and this partial mapping is sent as if complete. -/
def permConduitMsg (allowed : List String) (delivered : List (String × String)) : RankMap :=
  collectB allowed delivered

/-- Lines 208-224 of `endpoints.go`: fold one rank of Scan B's map into the
entry the merged map already holds for that rank.  `existingMembers` is built
once from the current member list and is not updated while appending, so
deduplication is only against that snapshot. -/
def mergeEntry (ga : GroupInfo) (ob : Option GroupInfo) : GroupInfo :=
  match ob with
  | some gb =>
    { ga with Members := ga.Members ++ gb.Members.filter (fun n => !ga.Members.contains n) }
  | none => ga

/-- Lines 200-225 of `endpoints.go`: the merge of the two scans' maps.  Every
rank of Scan A is copied (with Scan B's members for the same rank folded in),
and every rank of Scan B that Scan A lacks is inserted as-is. -/
def mergeScans (a b : RankMap) : RankMap :=
  (a.map fun e => (e.1, mergeEntry e.2 (lookupGI b e.1))) ++
    b.filter fun e => (lookupGI a e.1).isNone

/-- Lines 227-230 of `endpoints.go`: sort every rank's member list. -/
def sortRanks (m : RankMap) : RankMap :=
  m.map fun e => (e.1, { e.2 with Members := sortStrings e.2.Members })

/-- ASCII lowercasing of one byte, as `strings.ToLower` acts on ASCII. -/
def asciiLower (b : Nat) : Nat := if 65 ≤ b ∧ b ≤ 90 then b + 32 else b

/-- The single-byte (ASCII) members of the character class `[0-9A-FK-OR]` of
`chatColorRegexp` under the `(?i)` flag: the digits, both cases of A-F and of
K/L/M/N/O/R.  Go's `(?i)` uses Unicode simple case folding, whose only
non-ASCII member for this class is U+212A KELVIN SIGN (the fold orbit of
K/k); that three-byte UTF-8 sequence (226 132 170) is handled explicitly by
`findAllColor` and `stripColor`. -/
def isColorCode (b : Nat) : Bool :=
  (48 ≤ b && b ≤ 57) || (65 ≤ b && b ≤ 70) || (75 ≤ b && b ≤ 79) || b == 82 ||
    (97 ≤ b && b ≤ 102) || (107 ≤ b && b ≤ 111) || b == 114

/-- Model of `chatColorRegexp.FindAllString(lit, -1)` over the UTF-8 bytes of
the literal: the regexp is `(?i)[&§][0-9A-FK-OR]`, `&` is byte 38 and `§` is
the two-byte sequence 194 167; the code character is either an ASCII member
of the class or U+212A KELVIN SIGN (bytes 226 132 170), which Unicode simple
case folding puts in the orbit of K/k; matches are found left to right and
do not overlap. -/
def findAllColor : List Nat → List (List Nat)
  | 38 :: 226 :: 132 :: 170 :: rest => [38, 226, 132, 170] :: findAllColor rest
  | 194 :: 167 :: 226 :: 132 :: 170 :: rest =>
    [194, 167, 226, 132, 170] :: findAllColor rest
  | 38 :: c :: rest =>
    if isColorCode c then [38, c] :: findAllColor rest else findAllColor (c :: rest)
  | 194 :: 167 :: c :: rest =>
    if isColorCode c then [194, 167, c] :: findAllColor rest else findAllColor (c :: rest)
  | _ :: rest => findAllColor rest
  | [] => []

/-- Model of `chatColorRegexp.ReplaceAllString(lit, "")`: the same scan as
`findAllColor` (including the U+212A KELVIN SIGN matches of the case-folded
class), keeping the bytes that are not part of a match. -/
def stripColor : List Nat → List Nat
  | 38 :: 226 :: 132 :: 170 :: rest => stripColor rest
  | 194 :: 167 :: 226 :: 132 :: 170 :: rest => stripColor rest
  | 38 :: c :: rest =>
    if isColorCode c then stripColor rest else 38 :: stripColor (c :: rest)
  | 194 :: 167 :: c :: rest =>
    if isColorCode c then stripColor rest else 194 :: 167 :: stripColor (c :: rest)
  | b :: rest => b :: stripColor rest
  | [] => []

/-- Model of `strings.ReplaceAll(title, "\\", "")` (line 303 of
`endpoints.go`): every backslash byte (92) is removed. -/
def removeBackslashes (l : List Nat) : List Nat := l.filter (fun b => b ≠ 92)

/-- Model of `strings.ToLower` on the byte strings this code path produces:
ASCII bytes are lowercased; a stray continuation byte (such as the 167 left
over from slicing `§` in half) is invalid UTF-8 and is replaced by the
replacement character U+FFFD (bytes 239 191 189); a two-byte sequence
starting with 194 encodes U+0080-U+00BF, none of which lowercases; the
three-byte sequence of U+212A KELVIN SIGN (226 132 170) lowercases to the
single ASCII byte of k (107). -/
def goToLower : List Nat → List Nat
  | [] => []
  | [b] => if b < 128 then [asciiLower b] else [239, 191, 189]
  | [b, b2] =>
    if b < 128 then asciiLower b :: goToLower [b2]
    else if b = 194 ∧ 128 ≤ b2 ∧ b2 ≤ 191 then [b, b2]
    else 239 :: 191 :: 189 :: goToLower [b2]
  | b :: b2 :: b3 :: rest =>
    if b < 128 then asciiLower b :: goToLower (b2 :: b3 :: rest)
    else if b = 194 ∧ 128 ≤ b2 ∧ b2 ≤ 191 then b :: b2 :: goToLower (b3 :: rest)
    else if b = 226 ∧ b2 = 132 ∧ b3 = 170 then 107 :: goToLower rest
    else 239 :: 191 :: 189 :: goToLower (b2 :: b3 :: rest)

/-- The fixed 16-entry `chatColorsToHex` table from `main.go`, keyed by the
single UTF-8 byte of the code character. -/
def lookupHex (l : List Nat) : Option String :=
  if l = [48] then some "#000000"
  else if l = [49] then some "#0000AA"
  else if l = [50] then some "#00AA00"
  else if l = [51] then some "#00AAAA"
  else if l = [52] then some "#AA0000"
  else if l = [53] then some "#AA00AA"
  else if l = [54] then some "#FFAA00"
  else if l = [55] then some "#AAAAAA"
  else if l = [56] then some "#555555"
  else if l = [57] then some "#5555FF"
  else if l = [97] then some "#55FF55"
  else if l = [98] then some "#55FFFF"
  else if l = [99] then some "#FF5555"
  else if l = [100] then some "#FF55FF"
  else if l = [101] then some "#FFFF55"
  else if l = [102] then some "#FFFFFF"
  else none

/-- Lines 291-297 of `endpoints.go`: find every colour-code match in the
prefix literal; if there is at least one, take the last, drop its first BYTE
(`[1:]` is byte slicing in Go), lowercase, and look the result up in the hex
table.  `none` means the code assigns no colour. -/
def colorOfLiteral (lit : List Nat) : Option String :=
  match (findAllColor lit).getLast? with
  | none => none
  | some m => lookupHex (goToLower (m.drop 1))

/-- Lines 300-303 of `endpoints.go`: the rank title is the literal with all
colour-code matches stripped and every backslash removed. -/
def titleOfLiteral (lit : List Nat) : List Nat :=
  removeBackslashes (stripColor lit)

/-- Model of Go's `strings.Split` over UTF-8 bytes with a one-byte
separator. -/
def splitOnByte (sep : Nat) : List Nat → List (List Nat)
  | [] => [[]]
  | b :: rest =>
    if b = sep then [] :: splitOnByte sep rest
    else
      match splitOnByte sep rest with
      | [] => [[b]]
      | s :: ss => (b :: s) :: ss

/-- Value of `acc` after consuming a digit run; `none` as soon as a non-digit
byte appears. -/
def digitsValB : List Nat → Nat → Option Nat
  | [], acc => some acc
  | b :: rest, acc =>
    if 48 ≤ b ∧ b ≤ 57 then digitsValB rest (acc * 10 + (b - 48)) else none

/-- Digit-run parser: at least one byte, all of them ASCII digits. -/
def digitsToNatB (l : List Nat) : Option Nat :=
  match l with
  | [] => none
  | _ => digitsValB l 0

/-- The largest value of Go's 64-bit `int`. -/
def goIntMax : Nat := 9223372036854775807

/-- Magnitude-and-sign step of `strconv.Atoi`: all bytes must be digits and
the signed value must fit in a 64-bit `int`, otherwise `Atoi` returns an
error. -/
def atoiCore (ds : List Nat) (neg : Bool) : Option Int :=
  match digitsToNatB ds with
  | none => none
  | some n =>
    if neg then (if n ≤ goIntMax + 1 then some (-(n : Int)) else none)
    else (if n ≤ goIntMax then some (n : Int) else none)

/-- Model of `strconv.Atoi` on the UTF-8 bytes of its argument: an optional
leading `+` (43) or `-` (45) followed by a non-empty run of digits, within
the 64-bit `int` range. -/
def goAtoiB (l : List Nat) : Option Int :=
  match l with
  | [] => none
  | b :: rest =>
    if b = 43 then atoiCore rest false
    else if b = 45 then atoiCore rest true
    else atoiCore l false

/-- Byte strings of the node categories tested by the `switch` at line 266 of
`endpoints.go`. -/
def weightBytes : List Nat := [119, 101, 105, 103, 104, 116]

/-- UTF-8 bytes of the string "prefix". -/
def categoryPrefixBytes : List Nat := [112, 114, 101, 102, 105, 120]

/-- The mutation `rank.Weight = num` applied by the weight branch. -/
def weightUpdate (num : Int) (gi : GroupInfo) : GroupInfo := { gi with Weight := num }

/-- The mutations of the prefix branch: assign `Color` only on a table hit,
then always assign `Title`. -/
def prefixUpdate (lit : List Nat) (gi : GroupInfo) : GroupInfo :=
  let gi2 : GroupInfo :=
    match colorOfLiteral lit with
    | some hex => { gi with Color := hex }
    | none => gi
  { gi2 with Title := titleOfLiteral lit }

/-- The `switch len(split)` at lines 278-286 of `endpoints.go`: the literal is
the final segment of a 2- or 3-segment node and empty otherwise. -/
def litOfSegs (restSegs : List (List Nat)) : List Nat :=
  match restSegs with
  | [s1] => s1
  | [_, s2] => s2
  | _ => []

/-- One iteration of the enrichment row loop (lines 258-309 of
`endpoints.go`).  The node is split on `"."`; `split[0]` selects the branch;
the weight branch reads `split[1]` WITHOUT a length check, so a weight node
with no dot would panic with an index-out-of-range fault, modelled as `none`.
The prefix branch guards its indexing by the segment count and falls back to
an empty literal.  Updates only apply to ranks already in the map; unknown
ranks are logged and skipped. -/
def applyRow3 (m : RankMap) (groupName : String) (node : List Nat) : Option RankMap :=
  match splitOnByte 46 node with
  | [] => none
  | s0 :: restSegs =>
    if s0 = weightBytes then
      match restSegs with
      | [] => none
      | s1 :: _ =>
        match goAtoiB s1 with
        | some num => some (updateRank m groupName (weightUpdate num))
        | none => some m
    else if s0 = categoryPrefixBytes then
      some (updateRank m groupName (prefixUpdate (litOfSegs restSegs)))
    else some m

/-- The whole enrichment row loop: rows are `(name, permission)` pairs from
the group-permissions query; `none` propagates a panic. -/
def enrichAll : RankMap → List (String × List Nat) → Option RankMap
  | m, [] => some m
  | m, r :: rest =>
    match applyRow3 m r.1 r.2 with
    | some m2 => enrichAll m2 rest
    | none => none

/-- The successful-path result of `HandleStaff`: merge the two scans' maps,
sort every member list, then run the enrichment loop.  This is the value sent
on `resultCh` at line 311 of `endpoints.go`. -/
def handleStaffOk (allowed : List String) (rowsA rowsB : List (String × String))
    (rows3 : List (String × List Nat)) : Option RankMap :=
  enrichAll (sortRanks (mergeScans (collectA allowed rowsA) (collectB allowed rowsB))) rows3

/-- Model of `strconv.Atoi` on a Lean string, reading each character as its
code point.  ASCII characters carry the same number as their UTF-8 byte, and
any non-ASCII character maps above 57 and is rejected, exactly as Go rejects
any byte that is not an ASCII digit. -/
def goAtoi (s : String) : Option Int := goAtoiB (s.data.map Char.toNat)

/-- What `HandleVoters` decides to do after inspecting the `limit` query
parameter (lines 36-45 of `endpoints.go`): either answer 400 immediately, or
proceed to the database query with an optional limit. -/
inductive VotersAction where
  | badRequest (msg : String)
  | queryVotes (limit : Option Int)
deriving DecidableEq, Repr

/-- Whether a `VotersAction` goes on to issue the database query. -/
def VotersAction.issuesQuery : VotersAction → Bool
  | .badRequest _ => false
  | .queryVotes _ => true

/-- Lines 36-45 of `endpoints.go`: an absent (empty) `limit` proceeds with no
limit; otherwise `strconv.Atoi` must succeed with a positive value, and every
other outcome is an immediate 400 response echoing the raw string. -/
def votersLimitStep (raw : String) : VotersAction :=
  if raw = "" then .queryVotes none
  else
    match goAtoi raw with
    | some num => if 0 < num then .queryVotes (some num) else .badRequest ("invalid limit: " ++ raw)
    | none => .badRequest ("invalid limit: " ++ raw)

/-- Outcome carried on `resultCh` by the staff worker goroutine: either the
collected map or a database error. -/
inductive StaffOutcome where
  | ok (m : RankMap)
  | dbError
deriving DecidableEq

/-- An event the `select` at lines 314-325 of `endpoints.go` can observe:
either a value arrives on the size-1 buffered result channel, or the
5-second context deadline fires. -/
inductive OrchEvent where
  | resultArrives (o : StaffOutcome)
  | deadlineFires
deriving DecidableEq

/-- Body of the HTTP reply envelope written by `writeResponse`. -/
inductive ReplyBody where
  | payload (m : RankMap)
  | message (s : String)
deriving DecidableEq

/-- Status code and body of the reply `HandleStaff` writes. -/
structure HttpReply where
  status : Nat
  body : ReplyBody
deriving DecidableEq

/-- One step of the request orchestration at lines 314-325 of `endpoints.go`.
The state is the reply written so far (`none` while the `select` is still
waiting).  Once a reply is written the handler has returned: nothing reads
the result channel again, so any later event - in particular a late write by
the abandoned goroutine, which the size-1 buffer absorbs without blocking -
leaves the reply unchanged. -/
def orchStep : Option HttpReply → OrchEvent → Option HttpReply
  | some r, _ => some r
  | none, .deadlineFires => some ⟨500, .message "timed out"⟩
  | none, .resultArrives (.ok m) => some ⟨200, .payload m⟩
  | none, .resultArrives .dbError => some ⟨500, .message "database access error"⟩

/-- The reply after a whole sequence of events, in arrival order. -/
def orchRun (evs : List OrchEvent) : Option HttpReply :=
  evs.foldl orchStep none

/-- Follows the claim's words for the colour extraction, for comparison with
`colorOfLiteral`: take the last match, lowercase its CODE CHARACTER (the
final byte of the match), and look that single character up in the table. -/
def colorOfLiteralClaim (lit : List Nat) : Option String :=
  match (findAllColor lit).getLast? with
  | none => none
  | some m => lookupHex [asciiLower (m.getLastD 0)]

/-- Follows the claim's words for the merge, for comparison with
`mergeEntry`: union the second list into the first with exact-string-equality
deduplication, i.e. append each member not already present in the list built
so far. -/
def unionDedup (a b : List String) : List String :=
  b.foldl (fun acc n => if acc.contains n then acc else acc ++ [n]) a

theorem lookupGI_append (xs ys : RankMap) (k : String) :
    lookupGI (xs ++ ys) k =
      match lookupGI xs k with
      | some v => some v
      | none => lookupGI ys k := by
  induction xs with
  | nil => simp [lookupGI]
  | cons e rest ih =>
    by_cases h : e.1 = k
    · simp [lookupGI, h]
    · simp [lookupGI, h, ih]

theorem lookupGI_mergeMap (a b : RankMap) (k : String) :
    lookupGI (a.map fun e => (e.1, mergeEntry e.2 (lookupGI b e.1))) k =
      (lookupGI a k).map fun ga => mergeEntry ga (lookupGI b k) := by
  induction a with
  | nil => simp [lookupGI]
  | cons e rest ih =>
    by_cases h : e.1 = k
    · simp [lookupGI, h]
    · simp [lookupGI, h, ih]

theorem lookupGI_mergeFilter (a b : RankMap) (k : String) :
    lookupGI (b.filter fun e => (lookupGI a e.1).isNone) k =
      if (lookupGI a k).isNone then lookupGI b k else none := by
  induction b with
  | nil => simp [lookupGI]
  | cons e rest ih =>
    by_cases hk : e.1 = k
    · subst hk
      by_cases hp : (lookupGI a e.1).isNone = true
      · simp [List.filter, hp, lookupGI]
      · simp only [List.filter, hp]
        rw [ih]
        simp [hp]
    · by_cases hp : (lookupGI a e.1).isNone = true
      · simp [List.filter, hp, lookupGI, hk, ih]
      · simp [List.filter, hp, lookupGI, hk, ih]

theorem lookupGI_mergeScans (a b : RankMap) (k : String) :
    lookupGI (mergeScans a b) k =
      match lookupGI a k, lookupGI b k with
      | some ga, some gb =>
        some { ga with
               Members := ga.Members ++ gb.Members.filter fun n => !ga.Members.contains n }
      | some ga, none => some ga
      | none, ob => ob := by
  unfold mergeScans
  rw [lookupGI_append, lookupGI_mergeMap, lookupGI_mergeFilter]
  cases ha : lookupGI a k with
  | some ga => cases hb : lookupGI b k with
    | some gb => simp [mergeEntry, hb]
    | none => simp [mergeEntry, hb]
  | none => cases hb : lookupGI b k with
    | some gb => simp
    | none => simp

theorem membersOf_addMember (m : RankMap) (r un k : String) :
    membersOf (addMember m r un) k =
      if k = r then membersOf m r ++ [un] else membersOf m k := by
  by_cases hk : k = r
  · subst hk
    unfold membersOf addMember
    rw [lookupGI_setGI_self]
    cases h : lookupGI m k <;> simp [h, GroupInfo.empty]
  · unfold membersOf addMember
    rw [lookupGI_setGI_other _ _ _ _ (fun he => hk he.symm)]
    simp [hk]

theorem collectA_members_aux (allowed : List String) (rows : List (String × String)) :
    ∀ (acc : RankMap) (k u : String),
      u ∈ membersOf (rows.foldl (scanAStep allowed) acc) k ↔
        u ∈ membersOf acc k ∨ ((u, k) ∈ rows ∧ allowed.contains k = true) := by
  induction rows with
  | nil => intro acc k u; simp
  | cons row rows ih =>
    obtain ⟨run, rg⟩ := row
    intro acc k u
    rw [List.foldl_cons, ih]
    have hstep : u ∈ membersOf (scanAStep allowed acc (run, rg)) k ↔
        u ∈ membersOf acc k ∨ ((u, k) = (run, rg) ∧ allowed.contains k = true) := by
      unfold scanAStep
      by_cases hc : allowed.contains rg = true
      · rw [if_pos hc, membersOf_addMember]
        by_cases hk : k = rg
        · subst hk
          rw [if_pos rfl]
          simp [Prod.ext_iff, hc]
          have hm := List.mem_of_elem_eq_true hc
          tauto
        · rw [if_neg hk]
          simp [Prod.ext_iff, hk]
      · rw [if_neg hc]
        constructor
        · exact Or.inl
        · rintro (h | ⟨h1, h2⟩)
          · exact h
          · rw [Prod.mk.injEq] at h1
            rw [h1.2] at h2
            exact absurd h2 hc
    rw [hstep]
    simp only [List.mem_cons]
    tauto

theorem collectA_members (allowed : List String) (rows : List (String × String)) (k u : String) :
    u ∈ membersOf (collectA allowed rows) k ↔ ((u, k) ∈ rows ∧ allowed.contains k = true) := by
  rw [collectA, collectA_members_aux]
  simp [membersOf, lookupGI]

theorem collectB_members_aux (allowed : List String) (rows : List (String × String)) :
    ∀ (acc : RankMap) (k u : String),
      u ∈ membersOf (rows.foldl (scanBStep allowed) acc) k ↔
        u ∈ membersOf acc k ∨
          ∃ node, (node, u) ∈ rows ∧ (∃ s0, goSplitDot node = [s0, k]) ∧
            allowed.contains k = true := by
  induction rows with
  | nil => intro acc k u; simp
  | cons row rows ih =>
    obtain ⟨node, un⟩ := row
    intro acc k u
    rw [List.foldl_cons, ih]
    have hstep : u ∈ membersOf (scanBStep allowed acc (node, un)) k ↔
        u ∈ membersOf acc k ∨
          (un = u ∧ (∃ s0, goSplitDot node = [s0, k]) ∧ allowed.contains k = true) := by
      cases hs : goSplitDot node with
      | nil =>
        rw [show scanBStep allowed acc (node, un) = acc by unfold scanBStep; rw [hs]]
        constructor
        · exact Or.inl
        · rintro (h | ⟨-, ⟨s0, h2⟩, -⟩)
          · exact h
          · exact absurd h2 (by simp)
      | cons s0x segs =>
        cases segs with
        | nil =>
          rw [show scanBStep allowed acc (node, un) = acc by unfold scanBStep; rw [hs]]
          constructor
          · exact Or.inl
          · rintro (h | ⟨-, ⟨s0, h2⟩, -⟩)
            · exact h
            · exact absurd h2 (by simp)
        | cons s1 segs2 =>
          cases segs2 with
          | nil =>
            rw [show scanBStep allowed acc (node, un) =
                (if allowed.contains s1 = true then addMember acc s1 un else acc) by
              unfold scanBStep; rw [hs]]
            by_cases hc : allowed.contains s1 = true
            · rw [if_pos hc, membersOf_addMember]
              by_cases hk : k = s1
              · subst hk
                rw [if_pos rfl]
                constructor
                · intro h
                  rcases List.mem_append.mp h with h1 | h1
                  · exact Or.inl h1
                  · exact Or.inr ⟨(List.mem_singleton.mp h1).symm, ⟨s0x, rfl⟩, hc⟩
                · rintro (h1 | ⟨h1, -, -⟩)
                  · exact List.mem_append.mpr (Or.inl h1)
                  · exact List.mem_append.mpr (Or.inr (List.mem_singleton.mpr h1.symm))
              · rw [if_neg hk]
                constructor
                · exact Or.inl
                · rintro (h1 | ⟨-, ⟨s0, h2⟩, -⟩)
                  · exact h1
                  · injection h2 with ha2 hb2
                    injection hb2 with hc2 hd2
                    exact absurd hc2.symm hk
            · rw [if_neg hc]
              constructor
              · exact Or.inl
              · rintro (h1 | ⟨-, ⟨s0, h2⟩, hck⟩)
                · exact h1
                · injection h2 with ha2 hb2
                  injection hb2 with hc2 hd2
                  rw [← hc2] at hck
                  exact absurd hck hc
          | cons s2 segs3 =>
            rw [show scanBStep allowed acc (node, un) = acc by unfold scanBStep; rw [hs]]
            constructor
            · exact Or.inl
            · rintro (h | ⟨-, ⟨s0, h2⟩, -⟩)
              · exact h
              · exact absurd h2 (by simp)
    rw [hstep]
    constructor
    · rintro ((h | ⟨hu, hsp, hck⟩) | ⟨nodeX, hn, hsp, hck⟩)
      · exact Or.inl h
      · refine Or.inr ⟨node, ?_, hsp, hck⟩
        rw [← hu]
        exact List.mem_cons_self _ _
      · exact Or.inr ⟨nodeX, List.mem_cons_of_mem _ hn, hsp, hck⟩
    · rintro (h | ⟨nodeX, hn, hsp, hck⟩)
      · exact Or.inl (Or.inl h)
      · rcases List.mem_cons.mp hn with h1 | h1
        · have hnode : nodeX = node := congrArg Prod.fst h1
          have hu : u = un := congrArg Prod.snd h1
          refine Or.inl (Or.inr ⟨hu.symm, ?_, hck⟩)
          rw [← hnode]
          exact hsp
        · exact Or.inr ⟨nodeX, h1, hsp, hck⟩

theorem collectB_members (allowed : List String) (rows : List (String × String)) (k u : String) :
    u ∈ membersOf (collectB allowed rows) k ↔
      ∃ node, (node, u) ∈ rows ∧ (∃ s0, goSplitDot node = [s0, k]) ∧
        allowed.contains k = true := by
  rw [collectB, collectB_members_aux]
  simp [membersOf, lookupGI]

theorem collectA_keys_aux (allowed : List String) (rows : List (String × String)) :
    ∀ (acc : RankMap), (∀ e ∈ acc, allowed.contains e.1 = true) →
      ∀ e ∈ rows.foldl (scanAStep allowed) acc, allowed.contains e.1 = true := by
  induction rows with
  | nil => intro acc hacc; exact hacc
  | cons row rows ih =>
    intro acc hacc
    rw [List.foldl_cons]
    apply ih
    intro e he
    unfold scanAStep at he
    by_cases hc : allowed.contains row.2 = true
    · rw [if_pos hc] at he
      unfold addMember at he
      rcases mem_setGI _ _ _ _ he with h1 | h1
      · exact hacc e h1
      · rw [h1]; exact hc
    · rw [if_neg hc] at he
      exact hacc e he

theorem collectA_keys (allowed : List String) (rows : List (String × String)) :
    ∀ e ∈ collectA allowed rows, allowed.contains e.1 = true :=
  collectA_keys_aux allowed rows [] (by simp)

theorem collectB_keys_aux (allowed : List String) (rows : List (String × String)) :
    ∀ (acc : RankMap), (∀ e ∈ acc, allowed.contains e.1 = true) →
      ∀ e ∈ rows.foldl (scanBStep allowed) acc, allowed.contains e.1 = true := by
  induction rows with
  | nil => intro acc hacc; exact hacc
  | cons row rows ih =>
    intro acc hacc
    rw [List.foldl_cons]
    apply ih
    intro e he
    cases hs : goSplitDot row.1 with
    | nil =>
      rw [show scanBStep allowed acc row = acc by unfold scanBStep; rw [hs]] at he
      exact hacc e he
    | cons s0 segs =>
      cases segs with
      | nil =>
        rw [show scanBStep allowed acc row = acc by unfold scanBStep; rw [hs]] at he
        exact hacc e he
      | cons s1 segs2 =>
        cases segs2 with
        | nil =>
          rw [show scanBStep allowed acc row =
              (if allowed.contains s1 = true then addMember acc s1 row.2 else acc) by
            unfold scanBStep; rw [hs]] at he
          by_cases hc : allowed.contains s1 = true
          · rw [if_pos hc] at he
            unfold addMember at he
            rcases mem_setGI _ _ _ _ he with h1 | h1
            · exact hacc e h1
            · rw [h1]; exact hc
          · rw [if_neg hc] at he
            exact hacc e he
        | cons s2 segs3 =>
          rw [show scanBStep allowed acc row = acc by unfold scanBStep; rw [hs]] at he
          exact hacc e he

theorem collectB_keys (allowed : List String) (rows : List (String × String)) :
    ∀ e ∈ collectB allowed rows, allowed.contains e.1 = true :=
  collectB_keys_aux allowed rows [] (by simp)

theorem mergeScans_keys (a b : RankMap) (e : String × GroupInfo)
    (he : e ∈ mergeScans a b) : (∃ ea ∈ a, e.1 = ea.1) ∨ e ∈ b := by
  unfold mergeScans at he
  rcases List.mem_append.mp he with h | h
  · rcases List.mem_map.mp h with ⟨ea, hea, heq⟩
    exact Or.inl ⟨ea, hea, by rw [← heq]⟩
  · exact Or.inr (List.mem_filter.mp h).1

theorem lookupGI_updateRank_self (m : RankMap) (g : String) (f : GroupInfo → GroupInfo) :
    lookupGI (updateRank m g f) g = (lookupGI m g).map f := by
  induction m with
  | nil => rfl
  | cons e rest ih =>
    obtain ⟨ek, ev⟩ := e
    by_cases hek : ek = g
    · simp [updateRank, lookupGI, hek]
    · simp only [updateRank, List.map_cons, if_neg hek, lookupGI]
      rw [← updateRank]
      simp [hek, ih]

theorem lookupGI_updateRank_members (m : RankMap) (g k : String) (f : GroupInfo → GroupInfo)
    (hf : ∀ gi, (f gi).Members = gi.Members) :
    (lookupGI (updateRank m g f) k).map GroupInfo.Members =
      (lookupGI m k).map GroupInfo.Members := by
  induction m with
  | nil => rfl
  | cons e rest ih =>
    obtain ⟨ek, ev⟩ := e
    by_cases hek : ek = g
    · by_cases hk : ek = k
      · subst hek
        subst hk
        simp [updateRank, lookupGI, hf]
      · simp only [updateRank, List.map_cons, if_pos hek, lookupGI]
        rw [← updateRank]
        simp [hk, ih]
    · by_cases hk : ek = k
      · subst hk
        simp [updateRank, lookupGI, hek]
      · simp only [updateRank, List.map_cons, if_neg hek, lookupGI]
        rw [← updateRank]
        simp [hk, ih]

theorem weightUpdate_members (num : Int) (gi : GroupInfo) :
    (weightUpdate num gi).Members = gi.Members := rfl

theorem prefixUpdate_members (lit : List Nat) (gi : GroupInfo) :
    (prefixUpdate lit gi).Members = gi.Members := by
  unfold prefixUpdate
  cases colorOfLiteral lit <;> rfl

theorem applyRow3_members (m : RankMap) (g : String) (node : List Nat) (m2 : RankMap)
    (h : applyRow3 m g node = some m2) (k : String) :
    (lookupGI m2 k).map GroupInfo.Members = (lookupGI m k).map GroupInfo.Members := by
  unfold applyRow3 at h
  split at h
  · exact absurd h (by simp)
  · split at h
    · split at h
      · exact absurd h (by simp)
      · split at h
        · injection h with h2
          rw [← h2]
          exact lookupGI_updateRank_members m g k _ (weightUpdate_members _)
        · have hm2 : m2 = m := by injection h with h2; exact h2.symm
          rw [hm2]
    · split at h
      · injection h with h2
        rw [← h2]
        exact lookupGI_updateRank_members m g k _ (prefixUpdate_members _)
      · have hm2 : m2 = m := by injection h with h2; exact h2.symm
        rw [hm2]

theorem enrichAll_members (rows : List (String × List Nat)) :
    ∀ (m m' : RankMap), enrichAll m rows = some m' →
      ∀ k, (lookupGI m' k).map GroupInfo.Members = (lookupGI m k).map GroupInfo.Members := by
  induction rows with
  | nil =>
    intro m m' h k
    have : m = m' := by injection h
    rw [this]
  | cons r rows ih =>
    intro m m' h k
    unfold enrichAll at h
    cases ha : applyRow3 m r.1 r.2 with
    | none => rw [ha] at h; exact absurd h (by simp)
    | some m2 =>
      rw [ha] at h
      exact (ih m2 m' h k).trans (applyRow3_members m r.1 r.2 m2 ha k)

theorem membersOf_congr (m1 m2 : RankMap) (k : String)
    (h : (lookupGI m1 k).map GroupInfo.Members = (lookupGI m2 k).map GroupInfo.Members) :
    membersOf m1 k = membersOf m2 k := by
  unfold membersOf
  cases h1 : lookupGI m1 k with
  | none =>
    rw [h1] at h
    cases h2 : lookupGI m2 k with
    | none => rfl
    | some g2 => rw [h2] at h; exact absurd h (by simp)
  | some g1 =>
    rw [h1] at h
    cases h2 : lookupGI m2 k with
    | none => rw [h2] at h; exact absurd h (by simp)
    | some g2 =>
      rw [h2] at h
      simpa using h

theorem membersOf_sortRanks (m : RankMap) (k : String) :
    membersOf (sortRanks m) k = sortStrings (membersOf m k) := by
  induction m with
  | nil => simp [sortRanks, membersOf, lookupGI, sortStrings, List.insertionSort]
  | cons e rest ih =>
    by_cases hk : e.1 = k
    · simp [sortRanks, membersOf, lookupGI, hk]
    · simp only [sortRanks, List.map_cons, membersOf, lookupGI, hk, if_false, if_neg]
      rw [show (List.map (fun e => (e.1, { e.2 with Members := sortStrings e.2.Members })) rest : RankMap) = sortRanks rest from rfl] at *
      exact ih

theorem mergeScans_membersOf_nodup (a b : RankMap) (k : String)
    (ha : ∀ e ∈ a, e.2.Members.Nodup) (hb : ∀ e ∈ b, e.2.Members.Nodup) :
    (membersOf (mergeScans a b) k).Nodup := by
  unfold membersOf
  rw [lookupGI_mergeScans]
  cases h1 : lookupGI a k with
  | none =>
    cases h2 : lookupGI b k with
    | none => simp
    | some gb => exact hb (k, gb) (lookupGI_mem b k gb h2)
  | some ga =>
    cases h2 : lookupGI b k with
    | none => exact ha (k, ga) (lookupGI_mem a k ga h1)
    | some gb =>
      simp only []
      apply List.Nodup.append
      · exact ha (k, ga) (lookupGI_mem a k ga h1)
      · exact List.Nodup.filter _ (hb (k, gb) (lookupGI_mem b k gb h2))
      · intro x hx hx2
        have hp := (List.mem_filter.mp hx2).2
        have : ga.Members.contains x = true := List.elem_eq_true_of_mem hx
        rw [this] at hp
        exact absurd hp (by simp)

theorem findAllColor_shapes : ∀ l m, m ∈ findAllColor l →
    (∃ c, isColorCode c = true ∧ m = [38, c]) ∨
    (∃ c, isColorCode c = true ∧ m = [194, 167, c]) ∨
    m = [38, 226, 132, 170] ∨ m = [194, 167, 226, 132, 170] := by
  intro l
  induction l using findAllColor.induct with
  | case1 rest ih =>
    intro m hm
    rw [findAllColor] at hm
    rcases List.mem_cons.mp hm with h | h
    · exact Or.inr (Or.inr (Or.inl h))
    · exact ih m h
  | case2 rest ih =>
    intro m hm
    rw [findAllColor] at hm
    rcases List.mem_cons.mp hm with h | h
    · exact Or.inr (Or.inr (Or.inr h))
    · exact ih m h
  | case3 c rest hx hc ih =>
    intro m hm
    rw [findAllColor] at hm
    rw [if_pos hc] at hm
    rcases List.mem_cons.mp hm with h | h
    · exact Or.inl ⟨c, hc, h⟩
    · exact ih m h
    exact hx
  | case4 c rest hx hc ih =>
    intro m hm
    rw [findAllColor] at hm
    rw [if_neg hc] at hm
    exact ih m hm
    exact hx
  | case5 c rest hx hc ih =>
    intro m hm
    rw [findAllColor] at hm
    rw [if_pos hc] at hm
    rcases List.mem_cons.mp hm with h | h
    · exact Or.inr (Or.inl ⟨c, hc, h⟩)
    · exact ih m h
    exact hx
  | case6 c rest hx hc ih =>
    intro m hm
    rw [findAllColor] at hm
    rw [if_neg hc] at hm
    exact ih m hm
    exact hx
  | case7 b rest hx1 hx2 hx3 hx4 ih =>
    intro m hm
    rw [findAllColor] at hm
    exact ih m hm
    exact hx1
    exact hx2
    exact hx3
    exact hx4
  | case8 =>
    intro m hm
    rw [findAllColor] at hm
    exact absurd hm (by simp)

theorem isColorCode_lt_128 (c : Nat) (h : isColorCode c = true) : c < 128 := by
  simp only [isColorCode, Bool.or_eq_true, Bool.and_eq_true, decide_eq_true_eq,
    beq_iff_eq] at h
  omega

theorem lookupHex_fffd (xs : List Nat) : lookupHex (239 :: xs) = none := by
  simp [lookupHex]

theorem splitOnByte_ne_nil (sep : Nat) (l : List Nat) : splitOnByte sep l ≠ [] := by
  cases l with
  | nil => simp [splitOnByte]
  | cons b rest =>
    unfold splitOnByte
    by_cases h : b = sep
    · simp [h]
    · simp only [h, if_false, if_neg]
      cases splitOnByte sep rest <;> simp

theorem splitOnByte_sepFree (sep : Nat) (l : List Nat) (h : sep ∉ l) :
    splitOnByte sep l = [l] := by
  induction l with
  | nil => rfl
  | cons b rest ih =>
    have hb : ¬ b = sep := fun he => h (he ▸ List.mem_cons_self b rest)
    have hr : sep ∉ rest := fun hm => h (List.mem_cons_of_mem b hm)
    unfold splitOnByte
    rw [if_neg hb, ih hr]

theorem splitOnByte_append (sep : Nat) (pre rest : List Nat) (h : sep ∉ pre) :
    splitOnByte sep (pre ++ sep :: rest) = pre :: splitOnByte sep rest := by
  induction pre with
  | nil => simp [splitOnByte]
  | cons b pre ih =>
    have hb : ¬ b = sep := fun he => h (he ▸ List.mem_cons_self b pre)
    have hp : sep ∉ pre := fun hm => h (List.mem_cons_of_mem b hm)
    rw [List.cons_append]
    simp only [splitOnByte, if_neg hb]
    rw [ih hp]

theorem orchStep_absorb (r : HttpReply) (evs : List OrchEvent) :
    evs.foldl orchStep (some r) = some r := by
  induction evs with
  | nil => rfl
  | cons e evs ih => rw [List.foldl_cons]; exact ih

theorem removeBackslashes_no_backslash (l : List Nat) : 92 ∉ removeBackslashes l := by
  intro h
  have := (List.mem_filter.mp h).2
  simp at this

theorem prefixUpdate_title (lit : List Nat) (gi : GroupInfo) :
    (prefixUpdate lit gi).Title = titleOfLiteral lit := by
  unfold prefixUpdate
  cases colorOfLiteral lit <;> rfl

/-- C1, counterexample: merging Scan A = (mod -> [alice]) with Scan B =
(mod -> [bob, bob]) appends bob twice, because the `existingMembers` set is a
snapshot of the pre-merge member list and is not updated while appending; the
union-with-exact-string-deduplication the claim describes would give
[alice, bob].  The claimed universal deduplication therefore fails. -/
theorem c1_merge_dedup_counterexample :
    membersOf (mergeScans [("mod", ⟨[], "", 0, ["alice"]⟩)]
        [("mod", ⟨[], "", 0, ["bob", "bob"]⟩)]) "mod" = ["alice", "bob", "bob"] ∧
      (["alice", "bob", "bob"].count "bob") = 2 ∧
      unionDedup ["alice"] ["bob", "bob"] = ["alice", "bob"] := by
  refine ⟨by decide, by decide, by decide⟩

/-- C1 (amended): every rank of Scan A's map is copied into the result; for a
rank in both maps, Scan B's members NOT already in Scan A's member list are
appended in order (deduplication is only against Scan A's snapshot, so a
member repeated inside Scan B's own list is appended repeatedly); a rank only
in Scan B is inserted with its list as-is; and the claim's concrete example
(mod -> [alice]) merged with (mod -> [alice, bob]) yields [alice, bob] with
alice appearing once. -/
theorem c1_merge_characterization :
    (∀ a b k, lookupGI (mergeScans a b) k =
      match lookupGI a k, lookupGI b k with
      | some ga, some gb =>
        some { ga with
               Members := ga.Members ++ gb.Members.filter fun n => !ga.Members.contains n }
      | some ga, none => some ga
      | none, ob => ob) ∧
    lookupGI (mergeScans [("mod", ⟨[], "", 0, ["alice"]⟩)]
        [("mod", ⟨[], "", 0, ["alice", "bob"]⟩)]) "mod" = some ⟨[], "", 0, ["alice", "bob"]⟩ :=
  ⟨lookupGI_mergeScans, by decide⟩

/-- C2, counterexample: when the same username appears twice within a single
scan's row sequence, the response contains it twice - the merge deduplicates
only across the two scans, not within one scan - so the no-duplicates claim
quantified over ANY row contents fails. -/
theorem c2_response_nodup_counterexample :
    handleStaffOk ["mod"] [("alice", "mod"), ("alice", "mod")] [] [] =
      some [("mod", ⟨[], "", 0, ["alice", "alice"]⟩)] ∧
    ¬ (["alice", "alice"].Nodup) := by
  refine ⟨by decide, by decide⟩

/-- C2 (amended): at response time every rank's member list is sorted
lexicographically - unconditionally, for any contents of the two scans' row
sequences - and it is additionally duplicate-free provided each scan's own
per-rank list is duplicate-free (cross-scan duplicates are always removed;
duplicates arising within a single scan's rows survive the merge). -/
theorem c2_response_sorted_dedup (allowed : List String)
    (rowsA rowsB : List (String × String)) (rows3 : List (String × List Nat)) (m' : RankMap)
    (h : handleStaffOk allowed rowsA rowsB rows3 = some m') :
    ∀ k, List.Pairwise strLe (membersOf m' k) ∧
      ((∀ e ∈ collectA allowed rowsA, e.2.Members.Nodup) →
        (∀ e ∈ collectB allowed rowsB, e.2.Members.Nodup) →
        (membersOf m' k).Nodup) := by
  intro k
  have hmm : membersOf m' k =
      membersOf (sortRanks (mergeScans (collectA allowed rowsA) (collectB allowed rowsB))) k :=
    membersOf_congr _ _ k (enrichAll_members rows3 _ m' h k)
  rw [hmm, membersOf_sortRanks]
  refine ⟨sortStrings_sorted _, fun ha hb => ?_⟩
  exact ((sortStrings_perm _).nodup_iff).mpr (mergeScans_membersOf_nodup _ _ k ha hb)

theorem c2_response_sorted_dedup_witness :
    List.Pairwise strLe (membersOf [("mod", ⟨[], "", 0, ["alice", "bob"]⟩)] "mod") ∧
      (membersOf [("mod", ⟨[], "", 0, ["alice", "bob"]⟩)] "mod").Nodup :=
  ⟨(c2_response_sorted_dedup ["mod"] [("bob", "mod"), ("alice", "mod")] [] []
      [("mod", ⟨[], "", 0, ["alice", "bob"]⟩)] (by decide) "mod").1,
    (c2_response_sorted_dedup ["mod"] [("bob", "mod"), ("alice", "mod")] [] []
      [("mod", ⟨[], "", 0, ["alice", "bob"]⟩)] (by decide) "mod").2 (by decide) (by decide)⟩

/-- C3, counterexample: when the row source fails after delivering only a
strict prefix of the result set, `rows1.Next()` returns false, the loop exits
with `rows1.Err()` never checked, and line 147 sends the partially built
mapping - here the scan over the delivered prefix [(alice, mod)] of the full
row set [(alice, mod), (bob, mod)] sends a mapping missing bob, which is
neither an error nor the complete mapping. -/
theorem c3_scan_atomicity_counterexample :
    [("alice", "mod")] ++ [("bob", "mod")] = [("alice", "mod"), ("bob", "mod")] ∧
    primaryConduitMsg ["mod"] [("alice", "mod")] ≠
      collectA ["mod"] [("alice", "mod"), ("bob", "mod")] := by
  refine ⟨rfl, by decide⟩

/-- C3 (amended): the value the merge step receives on each scan's conduit
is exactly the collection over the rows that scan's iterator delivered.  For
the primary-group conduit a username is listed under a rank iff some
delivered row carries that (username, primary_group) pair and the rank is
allow-listed; for the user-permissions conduit iff some delivered row pairs
the username with a 2-segment node whose second segment is that allow-listed
rank.  Each message is complete for the delivered prefix, but when the row
source fails mid-iteration the prefix is strict and the mapping is partial
with respect to the scan's full row set (a query-setup error is sent on the
result channel instead and the conduit receives nothing). -/
theorem c3_conduit_characterization (allowed : List String)
    (deliveredA deliveredB : List (String × String)) (k u : String) :
    (u ∈ membersOf (primaryConduitMsg allowed deliveredA) k ↔
      ((u, k) ∈ deliveredA ∧ allowed.contains k = true)) ∧
    (u ∈ membersOf (permConduitMsg allowed deliveredB) k ↔
      (∃ node, (node, u) ∈ deliveredB ∧ (∃ s0, goSplitDot node = [s0, k]) ∧
        allowed.contains k = true)) :=
  ⟨collectA_members allowed deliveredA k u, collectB_members allowed deliveredB k u⟩

/-- C6: every entry of the merged Collected Mapping has an allow-listed rank
name - a row naming a rank outside the configured allow-list (case-sensitive
exact match) contributes nothing in either scan. -/
theorem c6_allowlist_filter (allowed : List String) (rowsA rowsB : List (String × String))
    (e : String × GroupInfo)
    (he : e ∈ mergeScans (collectA allowed rowsA) (collectB allowed rowsB)) :
    allowed.contains e.1 = true := by
  rcases mergeScans_keys _ _ e he with ⟨ea, hea, hkey⟩ | hB
  · rw [hkey]
    exact collectA_keys allowed rowsA ea hea
  · exact collectB_keys allowed rowsB e hB

theorem c6_allowlist_filter_witness :
    ["mod"].contains (("mod", (⟨[], "", 0, ["alice"]⟩ : GroupInfo))).1 = true :=
  c6_allowlist_filter ["mod"] [("alice", "mod")] [] ("mod", ⟨[], "", 0, ["alice"]⟩) (by decide)

/-- C7: if the deadline event is the first thing the select observes, the
response is 500 with data "timed out", and any sequence of later events -
including a late result write to the size-1 buffered channel that nobody
reads again - leaves that response unchanged. -/
theorem c7_timeout_first (evs : List OrchEvent) :
    orchRun (OrchEvent.deadlineFires :: evs) =
      some ⟨500, ReplyBody.message "timed out"⟩ := by
  unfold orchRun
  rw [List.foldl_cons]
  exact orchStep_absorb _ evs

/-- C4, counterexample: for the literal "§aVIP" the last (only) match is
"§a" and its code character is a, which the claim says is lowercased and
looked up, giving "#55FF55"; but `match[1:]` slices BYTES, cutting the
two-byte UTF-8 encoding of § in half, so the code looks up a key that starts
with a stray continuation byte, misses the table, and leaves Color empty. -/
theorem c4_color_counterexample :
    colorOfLiteralClaim [194, 167, 97, 86, 73, 80] = some "#55FF55" ∧
    colorOfLiteral [194, 167, 97, 86, 73, 80] = none := by
  refine ⟨by decide, by decide⟩

/-- C4 (amended): all matches of the colour regexp - including those whose
code character is U+212A KELVIN SIGN, the non-ASCII member of the class's
`(?i)` case-fold orbit of K - are found; if the last match is
ampersand-based with a single-byte code character ("&c"), that character is
lowercased and looked up in the 16-entry table, so a formatting code
k/l/m/n/o/r as the last match leaves Color empty without crashing ("&aVIP"
gives "#55FF55", "&c&lStaff" leaves Color empty); a Kelvin-sign code
character lowercases to the formatting code k and also leaves Color empty;
and if the last match is section-sign-based ("§c"), the byte slice `[1:]`
splits the two-byte § and the lookup always misses, so Color is left empty
regardless of the code character. -/
theorem c4_color_extraction :
    (∀ lit : List Nat, colorOfLiteral lit =
        match (findAllColor lit).getLast? with
        | some [38, c] => lookupHex [asciiLower c]
        | _ => none) ∧
    ([107, 108, 109, 110, 111, 114].all fun d => (lookupHex [d]).isNone) = true ∧
    colorOfLiteral [38, 97, 86, 73, 80] = some "#55FF55" ∧
    colorOfLiteral [38, 99, 38, 108, 83, 116, 97, 102, 102] = none ∧
    colorOfLiteral [194, 167, 97, 86, 73, 80] = none := by
  refine ⟨?_, by decide, by decide, by decide, by decide⟩
  intro lit
  unfold colorOfLiteral
  cases hl : (findAllColor lit).getLast? with
  | none => rfl
  | some m =>
    have hm : m ∈ findAllColor lit := List.mem_of_mem_getLast? hl
    rcases findAllColor_shapes lit m hm with ⟨c, hc, rfl⟩ | ⟨c, hc, rfl⟩ | rfl | rfl
    · have hlt := isColorCode_lt_128 c hc
      show lookupHex (goToLower (List.drop 1 [38, c])) = lookupHex [asciiLower c]
      simp [goToLower, hlt]
    · have hlt := isColorCode_lt_128 c hc
      show lookupHex (goToLower (List.drop 1 [194, 167, c])) = none
      rw [show goToLower (List.drop 1 [194, 167, c]) = 239 :: 191 :: 189 :: [asciiLower c] from by
        simp [goToLower, hlt]]
      exact lookupHex_fffd _
    · show lookupHex (goToLower (List.drop 1 [38, 226, 132, 170])) = none
      decide
    · show lookupHex (goToLower (List.drop 1 [194, 167, 226, 132, 170])) = none
      decide

/-- C5: processing a 2-segment prefix node sets the rank's Title to the
literal with ALL colour-code matches stripped (not only the last) and every
backslash removed - witnessed below on "&c&lStaff", whose two matches are
both stripped, leaving "Staff". -/
theorem c5_title_extraction (m : RankMap) (g : String) (gi : GroupInfo) (lit : List Nat)
    (hdot : 46 ∉ lit) (hg : lookupGI m g = some gi) :
    ((applyRow3 m g (categoryPrefixBytes ++ 46 :: lit)).bind fun m2 => lookupGI m2 g).map
        GroupInfo.Title = some (removeBackslashes (stripColor lit)) := by
  have hsplit : splitOnByte 46 (categoryPrefixBytes ++ 46 :: lit) = categoryPrefixBytes :: [lit] := by
    rw [splitOnByte_append 46 categoryPrefixBytes lit (by decide),
      splitOnByte_sepFree 46 lit hdot]
  have hw : ¬ (categoryPrefixBytes = weightBytes) := by decide
  have happ : applyRow3 m g (categoryPrefixBytes ++ 46 :: lit) =
      some (updateRank m g (prefixUpdate lit)) := by
    unfold applyRow3
    rw [hsplit]
    rfl
  rw [happ]
  show (lookupGI (updateRank m g (prefixUpdate lit)) g).map GroupInfo.Title =
    some (removeBackslashes (stripColor lit))
  rw [lookupGI_updateRank_self, hg]
  simp [prefixUpdate_title, titleOfLiteral]

theorem c5_title_extraction_witness :
    (46 ∉ ([38, 99, 38, 108, 83, 116, 97, 102, 102] : List Nat)) ∧
    ((applyRow3 [("mod", GroupInfo.empty)] "mod"
        (categoryPrefixBytes ++ 46 :: [38, 99, 38, 108, 83, 116, 97, 102, 102])).bind
          fun m2 => lookupGI m2 "mod").map GroupInfo.Title = some [83, 116, 97, 102, 102] :=
  ⟨by decide,
    (c5_title_extraction [("mod", GroupInfo.empty)] "mod" GroupInfo.empty
        [38, 99, 38, 108, 83, 116, 97, 102, 102] (by decide) (by decide)).trans (by decide)⟩

/-- C8: an enrichment row whose weight node has an unparseable value (such as
weight.abc) leaves the whole map unchanged - the targeted rank's Weight stays
at its default 0, no other field changes, and the loop continues without
failing the request. -/
theorem c8_weight_parse_nonfatal (m : RankMap) (g : String) (v : List Nat)
    (hdot : 46 ∉ v) (hparse : goAtoiB v = none) :
    applyRow3 m g (weightBytes ++ 46 :: v) = some m := by
  have hsplit : splitOnByte 46 (weightBytes ++ 46 :: v) = weightBytes :: [v] := by
    rw [splitOnByte_append 46 weightBytes v (by decide), splitOnByte_sepFree 46 v hdot]
  unfold applyRow3
  rw [hsplit]
  simp [hparse]

theorem c8_weight_parse_nonfatal_witness :
    (46 ∉ ([97, 98, 99] : List Nat)) ∧ goAtoiB [97, 98, 99] = none ∧
      applyRow3 [("mod", GroupInfo.empty)] "mod" (weightBytes ++ 46 :: [97, 98, 99]) =
        some [("mod", GroupInfo.empty)] :=
  ⟨by decide, by decide,
    c8_weight_parse_nonfatal [("mod", GroupInfo.empty)] "mod" [97, 98, 99]
      (by decide) (by decide)⟩

/-- C9, counterexample: a present-but-empty limit (?limit=) has the raw
string "" - not a positive integer - yet `r.URL.Query().Get` returns "" for
it exactly as for an absent parameter, so the guard at line 38 of
`endpoints.go` treats it as absent and the handler proceeds to the database
query with no limit and answers 200, not 400. -/
theorem c9_empty_limit_counterexample :
    goAtoi "" = none ∧
    votersLimitStep "" = VotersAction.queryVotes none ∧
    (votersLimitStep "").issuesQuery = true := by
  refine ⟨by decide, by decide, by decide⟩

/-- C9 (amended): a limit whose raw string is NON-EMPTY and does not parse
as a positive integer (non-numeric, zero or negative) makes HandleVoters
answer 400 with data exactly "invalid limit: " followed by the raw string,
and no database query is issued; a present-but-empty limit cannot be
distinguished from an absent one and proceeds to the query. -/
theorem c9_invalid_limit_rejected (raw : String) (hne : raw ≠ "")
    (hbad : ∀ n : Int, goAtoi raw = some n → ¬ 0 < n) :
    votersLimitStep raw = VotersAction.badRequest ("invalid limit: " ++ raw) ∧
      (votersLimitStep raw).issuesQuery = false := by
  have hv : votersLimitStep raw = VotersAction.badRequest ("invalid limit: " ++ raw) := by
    unfold votersLimitStep
    rw [if_neg hne]
    cases hg : goAtoi raw with
    | none => rfl
    | some n =>
      have := hbad n hg
      simp [this]
  exact ⟨hv, by rw [hv]; rfl⟩

theorem c9_invalid_limit_rejected_witness :
    votersLimitStep "abc" = VotersAction.badRequest ("invalid limit: " ++ "abc") ∧
      (votersLimitStep "abc").issuesQuery = false :=
  c9_invalid_limit_rejected "abc" (by decide)
    (fun n h => by rw [show goAtoi "abc" = none from by decide] at h; exact absurd h (by simp))

/-- C10: for every enrichment row whose permission starts with "weight." or
"prefix." - which is what the query's LIKE filter delivers - the dot
guarantees the split has at least two segments, so the unchecked `split[1]`
access of the weight branch is in bounds and the row is processed without an
index-out-of-range fault. -/
theorem c10_weight_index_safe (m : RankMap) (g : String) (node : List Nat)
    (h : (∃ r, node = weightBytes ++ 46 :: r) ∨ (∃ r, node = categoryPrefixBytes ++ 46 :: r)) :
    (applyRow3 m g node).isSome = true := by
  rcases h with ⟨r, rfl⟩ | ⟨r, rfl⟩
  · have hsplit : splitOnByte 46 (weightBytes ++ 46 :: r) = weightBytes :: splitOnByte 46 r :=
      splitOnByte_append 46 weightBytes r (by decide)
    unfold applyRow3
    rw [hsplit]
    cases hs : splitOnByte 46 r with
    | nil => exact absurd hs (splitOnByte_ne_nil 46 r)
    | cons s1 ss =>
      cases h2 : goAtoiB s1 with
      | none => simp [h2]
      | some num => simp [h2]
  · have hsplit : splitOnByte 46 (categoryPrefixBytes ++ 46 :: r) =
        categoryPrefixBytes :: splitOnByte 46 r :=
      splitOnByte_append 46 categoryPrefixBytes r (by decide)
    unfold applyRow3
    rw [hsplit]
    simp [show ¬ (categoryPrefixBytes = weightBytes) from by decide]

theorem c10_weight_index_safe_witness :
    (applyRow3 [] "g" (weightBytes ++ 46 :: [49, 48])).isSome = true :=
  c10_weight_index_safe [] "g" (weightBytes ++ 46 :: [49, 48]) (Or.inl ⟨[49, 48], rfl⟩)
